import Mathlib

/-!
Verification development for a small set of CI/governance text-processing
utilities: a Terraform tag-presence linter built on a brace-balance block
extractor, a Jenkins pipeline stage/tool inventory, and a Vault-usage
inventory.  The Python sources are embedded shallowly as executable Lean
functions over line sequences (`List String`) and character sequences
(`List Char`).
-/

/-! ### Character-class helpers (Python regex classes and `str` methods) -/

/-- Python regex whitespace class and the characters stripped by `str.strip`. -/
def isSpc (c : Char) : Bool :=
  c = ' ' || c = '\t' || c = '\n' || c = '\r' || c = '\x0b' || c = '\x0c'

/-- Python regex word-character class `[A-Za-z0-9_]`. -/
def isWordChar (c : Char) : Bool :=
  ('a' ≤ c && c ≤ 'z') || ('A' ≤ c && c ≤ 'Z') || ('0' ≤ c && c ≤ '9') || c = '_'

/-- A single or double quote character, the class matched by a quote pair in the regexes. -/
def isQuote (c : Char) : Bool :=
  c.toNat = 34 || c.toNat = 39

/-- `needle` is a prefix of `hay` (Python `str.startswith`). -/
def startsWithL : List Char → List Char → Bool
  | [], _ => true
  | _ :: _, [] => false
  | a :: as, b :: bs => a == b && startsWithL as bs

/-- `needle` occurs as a contiguous substring of `hay` (Python `in`). -/
def containsL (needle : List Char) : List Char → Bool
  | [] => startsWithL needle []
  | c :: cs => startsWithL needle (c :: cs) || containsL needle cs

/-- Case-insensitive prefix test, used for regexes compiled with `re.IGNORECASE`. -/
def prefixCI (needle hay : List Char) : Bool :=
  startsWithL (needle.map Char.toLower) (hay.map Char.toLower)

/-- Python `str.strip()` on a character list. -/
def trimL (s : List Char) : List Char :=
  ((s.dropWhile isSpc).reverse.dropWhile isSpc).reverse

/-! ### Block Extractor: `get_block_lines` from `hooks/aws_tags_check.py` -/

/-- Number of opening braces on a line (Python `line.count("{")`). -/
def braceOpens (s : String) : Nat := s.toList.count '\x7b'

/-- Number of closing braces on a line (Python `line.count("}")`). -/
def braceCloses (s : String) : Nat := s.toList.count '\x7d'

/-- Signed brace contribution of one line: opens minus closes. -/
def lineDelta (s : String) : Int := (braceOpens s : Int) - (braceCloses s : Int)

/-- Python `"{" in line`. -/
def hasOpenBrace (s : String) : Bool := s.toList.contains '\x7b'

/-- The while-loop of `get_block_lines`: `i` is the cursor, `acc` the block
lines gathered so far, `cnt` the running brace count, `started` the flag set
on the first line containing an opening brace.  Braces are only counted from
that first line onwards; every visited line is appended. -/
def gblLoop (lines : List String) (i : Nat) (acc : List String) (cnt : Int)
    (started : Bool) : List String × Nat :=
  if h : i < lines.length then
    let line := lines[i]
    let started' := started || hasOpenBrace line
    let cnt' := if started || hasOpenBrace line then cnt + lineDelta line else cnt
    let acc' := acc ++ [line]
    if started' && decide (cnt' ≤ 0) then (acc', i + 1)
    else gblLoop lines (i + 1) acc' cnt' started'
  else (acc, i)
termination_by lines.length - i

/-- `get_block_lines(lines, start_index)` from `hooks/aws_tags_check.py`:
returns the block lines and the index one past the block. -/
def get_block_lines (lines : List String) (startIndex : Nat) : List String × Nat :=
  gblLoop lines startIndex [] 0 false

/-- Index of the first line at or after `i` containing an opening brace. -/
def firstBrace (lines : List String) (i : Nat) : Option Nat :=
  if h : i < lines.length then
    if hasOpenBrace lines[i] then some i else firstBrace lines (i + 1)
  else none
termination_by lines.length - i

/-- First index `k ≥ i` at which the running brace count, seeded with `c` and
accumulating each line delta from line `i` onwards, drops to `≤ 0`. -/
def stopIdx (lines : List String) (i : Nat) (c : Int) : Option Nat :=
  if h : i < lines.length then
    let c' := c + lineDelta lines[i]
    if c' ≤ 0 then some i else stopIdx lines (i + 1) c'
  else none
termination_by lines.length - i

/-- Reference formulation of the extractor: find the first line containing an
opening brace; the depth run starts there (lines before it contribute
nothing), and the block ends inclusively at the first line where the depth
run is `≤ 0`, or at end-of-input. -/
def gblRef (lines : List String) (startIndex : Nat) : List String × Nat :=
  match firstBrace lines startIndex with
  | none => (lines.drop startIndex, max lines.length startIndex)
  | some j =>
    match stopIdx lines j 0 with
    | some k => ((lines.drop startIndex).take (k + 1 - startIndex), k + 1)
    | none => (lines.drop startIndex, lines.length)

/-- Follows the claim wording (not the source): the depth counter accumulates
the brace delta of EVERY visited line, including lines visited before the
first opening brace is seen. -/
def gblClaimLoop (lines : List String) (i : Nat) (acc : List String) (cnt : Int)
    (started : Bool) : List String × Nat :=
  if h : i < lines.length then
    let line := lines[i]
    let started' := started || hasOpenBrace line
    let cnt' := cnt + lineDelta line
    let acc' := acc ++ [line]
    if started' && decide (cnt' ≤ 0) then (acc', i + 1)
    else gblClaimLoop lines (i + 1) acc' cnt' started'
  else (acc, i)
termination_by lines.length - i

/-- Block extraction as described by the claim wording. -/
def gblClaim (lines : List String) (startIndex : Nat) : List String × Nat :=
  gblClaimLoop lines startIndex [] 0 false

/-- Fuel-indexed version of the extractor loop, used to state termination:
the recursion returns `none` if the fuel runs out. -/
def gblFuelLoop : Nat → List String → Nat → List String → Int → Bool →
    Option (List String × Nat)
  | 0, _, _, _, _, _ => none
  | fuel + 1, lines, i, acc, cnt, started =>
    if h : i < lines.length then
      let line := lines[i]
      let started' := started || hasOpenBrace line
      let cnt' := if started || hasOpenBrace line then cnt + lineDelta line else cnt
      let acc' := acc ++ [line]
      if started' && decide (cnt' ≤ 0) then some (acc', i + 1)
      else gblFuelLoop fuel lines (i + 1) acc' cnt' started'
    else some (acc, i)

/-- Cumulative brace delta of the first `k` lines starting at line `s`. -/
def depthRun (lines : List String) (s k : Nat) : Int :=
  (((lines.drop s).take k).map lineDelta).sum

/-! ### Tag Presence Checker: `check_aws_tags` from `hooks/aws_tags_check.py` -/

/-- The regex `\btags\s*=` (IGNORECASE) tested at the head of `cs`; `prev` is
the character immediately before `cs` (for the word boundary `\b`). -/
def tagsMatchAt (prev : Option Char) (cs : List Char) : Bool :=
  (match prev with | none => true | some p => !(isWordChar p))
  && prefixCI ("tags".toList) cs
  && (match (cs.drop 4).dropWhile isSpc with
      | c :: _ => c = '='
      | [] => false)

/-- Scan of `tags_regex.search`: try the pattern at every position. -/
def tagsAux (prev : Option Char) : List Char → Bool
  | [] => false
  | c :: cs => tagsMatchAt prev (c :: cs) || tagsAux (some c) cs

/-- `tags_regex.search(line)` for `tags_regex = re.compile(r'\btags\s*=', re.IGNORECASE)`. -/
def tagsSearch (s : List Char) : Bool := tagsAux none s

/-- `line.strip().startswith("#")`. -/
def isCommentL (s : String) : Bool := startsWithL ['#'] (trimL s.toList)

/-- `any(tags_regex.search(line) for line in block_lines if not line.strip().startswith("#"))`. -/
def blockHasTags (block : List String) : Bool :=
  block.any (fun l => !(isCommentL l) && tagsSearch l.toList)

/-- `"resource" in stripped_line and "aws_" in stripped_line`. -/
def resCond (stripped : List Char) : Bool :=
  containsL ("resource".toList) stripped && containsL ("aws_".toList) stripped

/-- `re.search(r'^module\s+"([^"]+)"', stripped_line)`: anchored at the start
of the stripped line; returns the quoted module name. -/
def moduleNameOf (stripped : List Char) : Option (List Char) :=
  match stripped with
  | 'm' :: 'o' :: 'd' :: 'u' :: 'l' :: 'e' :: rest =>
    if (rest.takeWhile isSpc).isEmpty then none
    else
      match rest.dropWhile isSpc with
      | c :: r2 =>
        if c.toNat = 34 then
          let nm := r2.takeWhile (fun d => d.toNat != 34)
          if nm.isEmpty then none
          else
            match r2.dropWhile (fun d => d.toNat != 34) with
            | d :: _ => if d.toNat = 34 then some nm else none
            | [] => none
        else none
      | [] => none
  | _ => none

/-- `module_keywords = ['rds', 'postgres', 'db', 'database', 'ec2', 'aurora']`. -/
def MODULE_KEYWORDS : List String :=
  ["rds", "postgres", "db", "database", "ec2", "aurora"]

/-- A Finding emitted by `check_aws_tags`: the message glue is dropped, the
line index and (for modules) the lower-cased module name are kept. -/
inductive Warning where
  | resourceMissing (idx : Nat) : Warning
  | moduleMissing (idx : Nat) (name : List Char) : Warning
deriving DecidableEq, Repr

/-- The line index a Finding points at. -/
def Warning.lineIdx : Warning → Nat
  | .resourceMissing i => i
  | .moduleMissing i _ => i

/-- The scanning loop of `check_aws_tags` over the file lines, cursor `i`. -/
def checkLoop (lines : List String) (i : Nat) : List Warning :=
  if h : i < lines.length then
    let stripped := trimL (lines[i].toList)
    if resCond stripped then
      let r := get_block_lines lines i
      (if blockHasTags r.1 then [] else [Warning.resourceMissing i]) ++ checkLoop lines r.2
    else if startsWithL ("module".toList) stripped then
      match moduleNameOf stripped with
      | some nm0 =>
        let nm := nm0.map Char.toLower
        if MODULE_KEYWORDS.any (fun kw => containsL kw.toList nm) then
          let r := get_block_lines lines i
          (if blockHasTags r.1 then [] else [Warning.moduleMissing i nm]) ++ checkLoop lines r.2
        else checkLoop lines (i + 1)
      | none => checkLoop lines (i + 1)
    else checkLoop lines (i + 1)
  else []
termination_by lines.length - i
decreasing_by
all_goals first
  | omega
  | (have key : ∀ (n j : Nat) (acc : List String) (c : Int) (st : Bool),
         lines.length - j ≤ n → j < lines.length → j < (gblLoop lines j acc c st).2 := by
       intro n
       induction n with
       | zero => intro j acc c st h1 h2; omega
       | succ n ih =>
         intro j acc c st h1 h2
         have hrec : ∀ (acc2 : List String) (c2 : Int) (st2 : Bool),
             j < (gblLoop lines (j + 1) acc2 c2 st2).2 := by
           intro acc2 c2 st2
           by_cases h3 : j + 1 < lines.length
           · have := ih (j + 1) acc2 c2 st2 (by omega) h3
             omega
           · rw [gblLoop, dif_neg h3]
             exact Nat.lt_succ_self j
         rw [gblLoop, dif_pos h2]
         dsimp only
         split
         · split
           · exact Nat.lt_succ_self j
           · exact hrec _ _ _
         · split
           · exact Nat.lt_succ_self j
           · exact hrec _ _ _
     have hk : i < (get_block_lines lines i).2 :=
       key (lines.length - i) i [] 0 false (le_refl _) h
     omega)

/-- `check_aws_tags` from `hooks/aws_tags_check.py` (file reading dropped:
the argument is the file line sequence). -/
def check_aws_tags (lines : List String) : List Warning :=
  checkLoop lines 0

/-! ### Generic `re.findall` scan: try a matcher at every position, resume
after each match (advancing at least one character, as Python does). -/

/-- `findAllAux f cs` collects the payloads of `f` tried left-to-right, the
scan resuming after each match. -/
def findAllAux {α : Type} (f : List Char → Option (α × List Char)) :
    List Char → List α
  | [] =>
    match f [] with
    | some (a, _) => [a]
    | none => []
  | c :: cs =>
    match f (c :: cs) with
    | some (a, rest) =>
      if _h : rest.length < cs.length + 1 then a :: findAllAux f rest
      else a :: findAllAux f cs
    | none => findAllAux f cs
termination_by cs => cs.length
decreasing_by
all_goals simp_all

/-! ### Stage/Tool Extractor: `parse_jenkinsfile` from `pipeline_inventory_tools.py` -/

/-- Tail of the stage pattern, `\s*\{.*?\}` with `re.DOTALL`: optional
whitespace, the opening brace, then a lazy body running to the FIRST closing
brace.  Returns the consumed text and the rest. -/
def stageTail (cs : List Char) : Option (List Char × List Char) :=
  let ws := cs.takeWhile isSpc
  match cs.dropWhile isSpc with
  | '\x7b' :: rest =>
    let body := rest.takeWhile (fun c => c != '\x7d')
    match rest.dropWhile (fun c => c != '\x7d') with
    | '\x7d' :: rest2 => some (ws ++ '\x7b' :: (body ++ ['\x7d']), rest2)
    | _ => none
  | _ => none

/-- Lazy scan for `.+?['\"]\)` followed by `stageTail`, with regex
backtracking: at each extension the closing quote + parenthesis is tried, and
on failure of the remainder the name is extended by one character. -/
def stageNameScan : List Char → Option (List Char × List Char)
  | [] => none
  | c :: cs =>
    if isQuote c = true ∧ cs.head? = some ')' then
      match stageTail cs.tail with
      | some (t, rest2) => some (c :: ')' :: t, rest2)
      | none => (stageNameScan cs).map (fun p => (c :: p.1, p.2))
    else (stageNameScan cs).map (fun p => (c :: p.1, p.2))

/-- One attempt of `stage\s*\(['\"].+?['\"]\)\s*\{.*?\}` (DOTALL) at the head
of `cs`: returns the full match (the capture group is the whole pattern) and
the rest of the text. -/
def tryStage : List Char → Option (List Char × List Char)
  | 's' :: 't' :: 'a' :: 'g' :: 'e' :: rest =>
    let ws := rest.takeWhile isSpc
    (match rest.dropWhile isSpc with
     | '(' :: r2 =>
       match r2 with
       | q :: c0 :: r4 =>
         if isQuote q then
           match stageNameScan r4 with
           | some (nm, rest5) =>
             some ('s' :: 't' :: 'a' :: 'g' :: 'e' :: (ws ++ '(' :: q :: c0 :: nm), rest5)
           | none => none
         else none
       | _ => none
     | _ => none)
  | _ => none

/-- `re.findall(r"(stage\s*\(['\"].+?['\"]\)\s*\{.*?\})", content, re.DOTALL)`. -/
def findStages (cs : List Char) : List (List Char) :=
  findAllAux tryStage cs

/-- Lazy scan for the name group of `stage\s*\(['\"](.+?)['\"]\)`: stops at
the first closing quote followed by a parenthesis. -/
def nameScan2 : List Char → Option (List Char × List Char)
  | [] => none
  | c :: cs =>
    if isQuote c = true ∧ cs.head? = some ')' then some ([], cs.tail)
    else (nameScan2 cs).map (fun p => (c :: p.1, p.2))

/-- One attempt of `stage\s*\(['\"](.+?)['\"]\)` at the head of `cs`: returns
the name group and the rest. -/
def tryStageName : List Char → Option (List Char × List Char)
  | 's' :: 't' :: 'a' :: 'g' :: 'e' :: rest =>
    (match rest.dropWhile isSpc with
     | '(' :: r2 =>
       match r2 with
       | q :: c0 :: r4 =>
         if isQuote q then
           match nameScan2 r4 with
           | some (nm, rest5) => some (c0 :: nm, rest5)
           | none => none
         else none
       | _ => none
     | _ => none)
  | _ => none

/-- `re.search(r"stage\s*\(['\"](.+?)['\"]\)", block)`: group 1 of the first
match. -/
def stageNameOf (block : List Char) : Option (List Char) :=
  (findAllAux tryStageName block).head?

/-- One attempt of `\s*steps\s*{` at the head of `cs`. -/
def trySteps : List Char → Option (Unit × List Char)
  | cs =>
    match cs.dropWhile isSpc with
    | 's' :: 't' :: 'e' :: 'p' :: 's' :: r =>
      match r.dropWhile isSpc with
      | '\x7b' :: r2 => some ((), r2)
      | _ => none
    | _ => none

/-- `len(re.findall(r"\s*steps\s*{", block))`. -/
def stepsCount (block : List Char) : Nat :=
  (findAllAux trySteps block).length

/-- Literal-pattern matcher in which `.` is the regex wildcard (any character
except a newline); both pattern and text are expected lower-cased.  Returns
the consumed text and the rest. -/
def patMatch : List Char → List Char → Option (List Char × List Char)
  | [], rest => some ([], rest)
  | _ :: _, [] => none
  | p :: ps, c :: cs =>
    if (if p = '.' then c != '\n' else p == c) then
      (patMatch ps cs).map (fun r => (c :: r.1, r.2))
    else none

/-- The word boundary `\b` between an optional left character and an optional
right character. -/
def wordBoundary (left right : Option Char) : Bool :=
  (match left with | none => false | some c => isWordChar c)
    != (match right with | none => false | some c => isWordChar c)

/-- Scan counting non-overlapping matches of `\b<pat>\b` (`re.findall`
length), `prev` being the character before the current position. -/
def countToolAux (pat : List Char) (prev : Option Char) : List Char → Nat
  | [] => 0
  | c :: cs =>
    match (if wordBoundary prev (some c) then patMatch pat (c :: cs) else none) with
    | some (consumed, rest) =>
      if wordBoundary consumed.getLast? rest.head? then
        if _h : rest.length < cs.length + 1 then 1 + countToolAux pat consumed.getLast? rest
        else 1 + countToolAux pat (some c) cs
      else countToolAux pat (some c) cs
    | none => countToolAux pat (some c) cs
termination_by cs => cs.length
decreasing_by
all_goals simp_all

/-- `len(re.findall(rf"\b{tool}\b", block_lower))` for one lower-cased tool
keyword. -/
def toolCount (pat : List Char) (text : List Char) : Nat :=
  countToolAux pat none text

/-- `TOOL_KEYWORDS` from `pipeline_inventory_tools.py`. -/
def TOOL_KEYWORDS : List String :=
  ["docker build", "docker push", "flake8", "gradlew", "newrelic", "nexus iq",
   "nexusiq", "npm", "prisma-cloud", "prismacloudpublish", "python", "python3",
   "rvm.rake", "sonar-scanner", "splunk", "tennable", "terraform apply",
   "twistlock"]

/-- `TOOL_KEYWORDS_LOWER = [tool.lower() for tool in TOOL_KEYWORDS]`. -/
def TOOL_KEYWORDS_LOWER : List (List Char) :=
  TOOL_KEYWORDS.map (fun t => t.toList.map Char.toLower)

/-- Python `", ".join` on character lists. -/
def joinCS : List (List Char) → List Char
  | [] => []
  | [x] => x
  | x :: y :: rest => x ++ ',' :: ' ' :: joinCS (y :: rest)

/-- Per-stage record computed by the loop body of `parse_jenkinsfile` for one
captured stage block: name, step count, per-tool counts, and the joined
`tools_used` string.  `none` when the stage-name search fails. -/
def parseStageBlock (block : List Char) : Option (List Char × Nat × List Nat × List Char) :=
  match stageNameOf block with
  | some nm =>
    let sc := stepsCount block
    let blockLower := block.map Char.toLower
    let tcs := TOOL_KEYWORDS_LOWER.map (fun t => toolCount t blockLower)
    let used := (TOOL_KEYWORDS.zip tcs).filterMap
      (fun p => if 0 < p.2 then some p.1 else none)
    some (nm, sc, tcs, joinCS (used.map String.toList))
  | none => none

/-- `parse_jenkinsfile` from `pipeline_inventory_tools.py` (file reading
dropped: the argument is the decoded content).  Returns
`(stages, step_counts, tool_counts_per_stage, tools_used_per_stage)`. -/
def parse_jenkinsfile (content : List Char) :
    List (List Char) × List Nat × List (List Nat) × List (List Char) :=
  let recs := (findStages content).filterMap parseStageBlock
  (recs.map (fun r => r.1), recs.map (fun r => r.2.1),
   recs.map (fun r => r.2.2.1), recs.map (fun r => r.2.2.2))

/-- `re.split(r", |\n", s)`: split on a comma-space pair or a newline. -/
def splitSep : List Char → List (List Char)
  | [] => [[]]
  | c :: rest =>
    if c = ',' ∧ rest.head? = some ' ' then [] :: splitSep rest.tail
    else if c = '\n' then [] :: splitSep rest
    else
      match splitSep rest with
      | [] => [[c]]
      | g :: gs => (c :: g) :: gs
termination_by cs => cs.length
decreasing_by
all_goals simp_all [List.length_tail]
all_goals omega

/-- Lexicographic (code-point) order on character lists, Python string `<=`. -/
def lexLe : List Char → List Char → Bool
  | [], _ => true
  | _ :: _, [] => false
  | a :: as, b :: bs => a < b || (a == b && lexLe as bs)

/-- Insert into a lexicographically sorted list. -/
def insertLex (x : List Char) : List (List Char) → List (List Char)
  | [] => [x]
  | y :: ys => if lexLe x y then x :: y :: ys else y :: insertLex x ys

/-- Python `sorted` on a list of strings (insertion sort, code-point order). -/
def sortLex (l : List (List Char)) : List (List Char) :=
  l.foldr insertLex []

/-- `total_steps = sum(step_counts)` in `collect_file_summary`. -/
def totalSteps (content : List Char) : Nat :=
  (parse_jenkinsfile content).2.1.sum

/-- `total_tool_counts = [sum(tool_counts[i] for tool_counts in
tool_counts_per_stage) for i in range(len(TOOL_KEYWORDS))]`. -/
def totalToolCounts (content : List Char) : List Nat :=
  (List.range TOOL_KEYWORDS.length).map
    (fun i => ((parse_jenkinsfile content).2.2.1.map (fun tc => tc.getD i 0)).sum)

/-- `tools_used_set = {tool for tools_used in tools_used_per_stage for tool
in re.split(r", |\n", tools_used) if tool}` in `collect_file_summary`. -/
def summaryToolSet (content : List Char) : Finset String :=
  ((parse_jenkinsfile content).2.2.2.flatMap
    (fun s => ((splitSep s).filter (fun t => !t.isEmpty)).map String.mk)).toFinset

/-- `tools_used_str = ", ".join(sorted(tools_used_set))`. -/
def summaryToolsUsedStr (content : List Char) : List Char :=
  joinCS (sortLex (((parse_jenkinsfile content).2.2.2.flatMap
    (fun s => (splitSep s).filter (fun t => !t.isEmpty))).dedup))

/-- The computed fields of one `collect_file_summary` row (the Team/Repo/path
columns are external glue): total step count, per-tool totals, used-tool set
and its joined string form. -/
def collect_file_summary (content : List Char) :
    Nat × List Nat × Finset String × List Char :=
  (totalSteps content, totalToolCounts content, summaryToolSet content,
   summaryToolsUsedStr content)

/-- The per-stage used-tool set of a stage record, from its per-tool counts:
the keywords whose count is positive. -/
def stageUsedSet (tc : List Nat) : Finset String :=
  ((TOOL_KEYWORDS.zip tc).filterMap
    (fun p => if 0 < p.2 then some p.1 else none)).toFinset

/-! ### Vault-Usage Extractor: `extract_vault_info` from
`pipeline_inventory_vaults.py` -/

/-- Scan of the lazy body `([\s\S]*?)` up to `^\s*\}` (MULTILINE): the body
ends at the first line start from which optional whitespace reaches a closing
brace.  Returns the body (including its final newline), the whitespace run,
and the rest after the closing brace. -/
def funcBodyScan : List Char → Option (List Char × List Char × List Char)
  | [] => none
  | c :: cs =>
    if c = '\n' then
      match cs.dropWhile isSpc with
      | '\x7d' :: rest => some ([c], cs.takeWhile isSpc, rest)
      | _ => (funcBodyScan cs).map (fun p => (c :: p.1, p.2.1, p.2.2))
    else (funcBodyScan cs).map (fun p => (c :: p.1, p.2.1, p.2.2))

/-- One attempt of `(def\s+\w+\s*\([^)]*\)\s*\{([\s\S]*?)^\s*\})`
(MULTILINE) at the head of `cs`: returns `(group1, group2)` — the whole
match and the body — and the rest. -/
def tryFunc : List Char → Option ((List Char × List Char) × List Char)
  | 'd' :: 'e' :: 'f' :: rest =>
    let ws1 := rest.takeWhile isSpc
    if ws1.isEmpty then none
    else
      let r1 := rest.dropWhile isSpc
      let nm := r1.takeWhile isWordChar
      if nm.isEmpty then none
      else
        let r2 := r1.dropWhile isWordChar
        let ws2 := r2.takeWhile isSpc
        match r2.dropWhile isSpc with
        | '(' :: r3 =>
          let args := r3.takeWhile (fun c => c != ')')
          (match r3.dropWhile (fun c => c != ')') with
           | ')' :: r4 =>
             let ws3 := r4.takeWhile isSpc
             (match r4.dropWhile isSpc with
              | '\x7b' :: r5 =>
                match funcBodyScan r5 with
                | some (body, ws4, r6) =>
                  some ((('d' :: 'e' :: 'f' :: ws1) ++ nm ++ ws2 ++ '(' :: args
                          ++ ')' :: ws3 ++ '\x7b' :: (body ++ ws4 ++ ['\x7d']),
                        body), r6)
                | none => none
              | _ => none)
           | _ => none)
        | _ => none
  | _ => none

/-- `re.findall(r"(def\s+\w+\s*\([^)]*\)\s*\{([\s\S]*?)^\s*\})", content,
re.MULTILINE)`. -/
def findFuncs (content : List Char) : List (List Char × List Char) :=
  findAllAux tryFunc content

/-- One attempt of `def\s+(\w+)`: returns the name group and the rest. -/
def tryDefName : List Char → Option (List Char × List Char)
  | 'd' :: 'e' :: 'f' :: rest =>
    let ws := rest.takeWhile isSpc
    if ws.isEmpty then none
    else
      let r1 := rest.dropWhile isSpc
      let nm := r1.takeWhile isWordChar
      if nm.isEmpty then none else some (nm, r1.dropWhile isWordChar)
  | _ => none

/-- `re.search(r"def\s+(\w+)", func_def)`: group 1 of the first match. -/
def searchDefName (cs : List Char) : Option (List Char) :=
  (findAllAux tryDefName cs).head?

/-- Host-part class `[a-zA-Z0-9.-]` of the vault URL regex. -/
def isHostChar (c : Char) : Bool :=
  ('a' ≤ c && c ≤ 'z') || ('A' ≤ c && c ≤ 'Z') || ('0' ≤ c && c ≤ '9')
    || c = '.' || c = '-'

/-- Trailing URL class `[a-zA-Z0-9._~:/?#\[\]@!$&'()*+,;=%]`. -/
def isUrlTailChar (c : Char) : Bool :=
  ('a' ≤ c && c ≤ 'z') || ('A' ≤ c && c ≤ 'Z') || ('0' ≤ c && c ≤ '9')
    || c = '.' || c = '_' || c = '~' || c = ':' || c = '/' || c = '?'
    || c = '#' || c = '[' || c = ']' || c = '@' || c = '!' || c = '$'
    || c = '&' || c.toNat = 39 || c = '(' || c = ')' || c = '*' || c = '+'
    || c = ',' || c = ';' || c = '=' || c = '%'

/-- Greedy-backtracking choice of `[a-zA-Z0-9.-]+\.vault`: the largest split
point `j ≥ 1` of the maximal host run `R` at which `.vault` (case
insensitively) begins. -/
def lastVaultStart (R : List Char) : Option Nat :=
  ((List.range R.length).filter
    (fun j => decide (1 ≤ j) && prefixCI (".vault".toList) (R.drop j))).getLast?

/-- The scheme-less part of the vault URL regex,
`[a-zA-Z0-9.-]+\.vault\.?[a-zA-Z0-9.-]*/?[...]*`, matched at the head of
`cs`. -/
def vaultCore (cs : List Char) : Option (List Char × List Char) :=
  match lastVaultStart (cs.takeWhile isHostChar) with
  | none => none
  | some j =>
    let after := cs.drop (j + 6)
    let run2 := after.takeWhile isHostChar
    let after2 := after.drop run2.length
    match after2 with
    | '/' :: t =>
      let run3 := t.takeWhile isUrlTailChar
      some (cs.take (j + 6) ++ run2 ++ '/' :: run3, t.drop run3.length)
    | _ =>
      let run3 := after2.takeWhile isUrlTailChar
      some (cs.take (j + 6) ++ run2 ++ run3, after2.drop run3.length)

/-- One attempt of the vault URL regex
`(?:https?://)?[a-zA-Z0-9.-]+\.vault\.?[a-zA-Z0-9.-]*/?[...]*` (IGNORECASE)
at the head of `cs`. -/
def tryVaultURL (cs : List Char) : Option (List Char × List Char) :=
  if prefixCI ("https://".toList) cs then
    match vaultCore (cs.drop 8) with
    | some (m, rest) => some (cs.take 8 ++ m, rest)
    | none => vaultCore cs
  else if prefixCI ("http://".toList) cs then
    match vaultCore (cs.drop 7) with
    | some (m, rest) => some (cs.take 7 ++ m, rest)
    | none => vaultCore cs
  else vaultCore cs

/-- Class `[^\s\"'=]` ending a credential match. -/
def isCredTail (c : Char) : Bool :=
  !(isSpc c) && c.toNat != 34 && c.toNat != 39 && c != '='

/-- Lazy scan of `.*?(?:cred|token|secret)[^\s\"'=]*` (no DOTALL: the lazy
dot cannot cross a newline). -/
def credAfter (cs : List Char) : Option (List Char × List Char) :=
  if prefixCI ("cred".toList) cs then
    let tail := (cs.drop 4).takeWhile isCredTail
    some (cs.take 4 ++ tail, (cs.drop 4).drop tail.length)
  else if prefixCI ("token".toList) cs then
    let tail := (cs.drop 5).takeWhile isCredTail
    some (cs.take 5 ++ tail, (cs.drop 5).drop tail.length)
  else if prefixCI ("secret".toList) cs then
    let tail := (cs.drop 6).takeWhile isCredTail
    some (cs.take 6 ++ tail, (cs.drop 6).drop tail.length)
  else
    match cs with
    | [] => none
    | c :: cs2 =>
      if c = '\n' then none
      else (credAfter cs2).map (fun p => (c :: p.1, p.2))
termination_by cs.length
decreasing_by simp_all

/-- One attempt of `vault.*?(?:cred|token|secret)[^\s\"'=]*` (IGNORECASE). -/
def tryVaultCred (cs : List Char) : Option (List Char × List Char) :=
  if prefixCI ("vault".toList) cs then
    match credAfter (cs.drop 5) with
    | some (m, rest) => some (cs.take 5 ++ m, rest)
    | none => none
  else none

/-- One attempt of `namespace\s*=\s*['\"]([^'\"]+)['\"]` (IGNORECASE):
returns the group. -/
def tryNamespace (cs : List Char) : Option (List Char × List Char) :=
  if prefixCI ("namespace".toList) cs then
    match (cs.drop 9).dropWhile isSpc with
    | '=' :: r1 =>
      (match r1.dropWhile isSpc with
       | q :: r2 =>
         if isQuote q then
           let v := r2.takeWhile (fun c => !(isQuote c))
           if v.isEmpty then none
           else
             match r2.dropWhile (fun c => !(isQuote c)) with
             | _ :: r3 => some (v, r3)
             | [] => none
         else none
       | [] => none)
    | _ => none
  else none

/-- The kv-path class: letters, digits, underscore, hyphen, slash. -/
def isKvChar (c : Char) : Bool :=
  ('a' ≤ c && c ≤ 'z') || ('A' ≤ c && c ≤ 'Z') || ('0' ≤ c && c ≤ '9')
    || c = '_' || c = '-' || c = '/'

/-- One attempt of the kv-path regex, `kv` then a slash then one or more
kv-path-class characters as the group (IGNORECASE). -/
def tryKvPath (cs : List Char) : Option (List Char × List Char) :=
  if prefixCI ("kv/".toList) cs then
    let run := (cs.drop 3).takeWhile isKvChar
    if run.isEmpty then none else some (run, (cs.drop 3).drop run.length)
  else none

/-- Class `[A-Za-z0-9_\-]` of a vault key. -/
def isKeyChar (c : Char) : Bool :=
  ('a' ≤ c && c ≤ 'z') || ('A' ≤ c && c ≤ 'Z') || ('0' ≤ c && c ≤ '9')
    || c = '_' || c = '-'

/-- One attempt of `['\"]([A-Za-z0-9_\-]+)['\"]`: returns the group. -/
def tryVaultKey : List Char → Option (List Char × List Char)
  | [] => none
  | q :: r =>
    if isQuote q then
      let run := r.takeWhile isKeyChar
      if run.isEmpty then none
      else
        match r.dropWhile isKeyChar with
        | d :: rest => if isQuote d then some (run, rest) else none
        | [] => none
    else none

/-- One attempt of `([A-Za-z0-9_]+)\s*=\s*['\"]([^'\"]+)['\"]`: returns the
two groups (variable name and value). -/
def tryEnvVar (cs : List Char) : Option ((List Char × List Char) × List Char) :=
  let nm := cs.takeWhile isWordChar
  if nm.isEmpty then none
  else
    match (cs.dropWhile isWordChar).dropWhile isSpc with
    | '=' :: r1 =>
      (match r1.dropWhile isSpc with
       | q :: r2 =>
         if isQuote q then
           let v := r2.takeWhile (fun c => !(isQuote c))
           if v.isEmpty then none
           else
             match r2.dropWhile (fun c => !(isQuote c)) with
             | _ :: r3 => some ((nm, v), r3)
             | [] => none
         else none
       | [] => none)
    | _ => none

/-- First index at which `needle` occurs in `hay` (Python `str.find`). -/
def findSubAux (needle : List Char) : List Char → Nat → Option Nat
  | hay, i =>
    if startsWithL needle hay then some i
    else
      match hay with
      | [] => none
      | _ :: t => findSubAux needle t (i + 1)

/-- The character-level brace scan of `extract_environment_block`: walk the
text keeping the stack depth; answer the position of the closing brace that
empties the stack.  A closing brace at depth zero (where the Python stack
pop would raise) is modelled as `none`; it is unreachable here because the
scan always starts at a found `environment` header, whose first delimiter
character is its opening brace. -/
def envScanAux : List Char → Nat → Nat → Option Nat
  | [], _, _ => none
  | c :: cs, depth, pos =>
    if c = '\x7b' then envScanAux cs (depth + 1) (pos + 1)
    else if c = '\x7d' then
      (if depth = 1 then some pos
       else if depth = 0 then none
       else envScanAux cs (depth - 1) (pos + 1))
    else envScanAux cs depth (pos + 1)

/-- `extract_environment_block` from `pipeline_inventory_vaults.py`: find
`environment {` in the lower-cased text, scan to the brace that balances its
opening brace, and return the stripped content in between (`none` when the
header or the closing brace is missing). -/
def extract_environment_block (content : List Char) : Option (List Char) :=
  match findSubAux ("environment \x7b".toList) (content.map Char.toLower) 0 with
  | none => none
  | some start =>
    match envScanAux (content.drop start) 0 0 with
    | some endRel => some (trimL ((content.drop (start + 13)).take (endRel - 13)))
    | none => none

/-- One row of the Vault-usage report (the Team/Repo/Jenkinsfile columns are
external glue); each pattern field is the `", "`-joined list of matches. -/
structure UsageRecord where
  function : List Char
  vaultURLs : List Char
  vaultCredentials : List Char
  vaultNamespaces : List Char
  kvPaths : List Char
  vaultKeys : List Char
  vaultEnvVars : List Char
deriving DecidableEq, Repr

/-- The record built for one function block `(func_def, func_body)` in the
loop of `extract_vault_info`. -/
def mkFuncRecord (fb : List Char × List Char) : UsageRecord :=
  let fname := (searchDefName fb.1).getD ("unknown".toList)
  let urls := joinCS (findAllAux tryVaultURL fb.2)
  let creds := joinCS (findAllAux tryVaultCred fb.2)
  let nss := joinCS (findAllAux tryNamespace fb.2)
  let kvs := findAllAux tryKvPath fb.2
  let keys :=
    if kvs.isEmpty then []
    else joinCS (sortLex ((findAllAux tryVaultKey fb.2).dedup))
  let envs := (findAllAux tryEnvVar fb.2).filter
    (fun p => containsL ("vault".toList) (p.1.map Char.toLower))
  let envsStr :=
    if envs.isEmpty then []
    else joinCS (envs.map (fun p => p.1 ++ '=' :: p.2))
  ⟨fname, urls, creds, nss, joinCS kvs, keys, envsStr⟩

/-- `vault_env_vars`: the assignments of the top-level environment block
whose variable name contains `vault` case-insensitively (empty when the
block is missing or empty). -/
def globalVaultVars (content : List Char) : List (List Char × List Char) :=
  match extract_environment_block content with
  | some e =>
    if e.isEmpty then []
    else (findAllAux tryEnvVar e).filter
      (fun p => containsL ("vault".toList) (p.1.map Char.toLower))
  | none => []

/-- The sentinel record appended for the top-level environment block. -/
def globalEnvRecord (content : List Char) : UsageRecord :=
  ⟨"global_environment".toList, [], [], [], [], [],
   joinCS ((globalVaultVars content).map (fun p => p.1 ++ '=' :: p.2))⟩

/-- `extract_vault_info` from `pipeline_inventory_vaults.py` (file reading
and the Team/Repo columns dropped: the argument is the decoded content). -/
def extract_vault_info (content : List Char) : List UsageRecord :=
  (findFuncs content).map mkFuncRecord
    ++ (if (globalVaultVars content).isEmpty then [] else [globalEnvRecord content])

/-! ### Helper lemmas about the Block Extractor -/

theorem gblLoop_next_gt (lines : List String) :
    ∀ (n i : Nat) (acc : List String) (c : Int) (st : Bool),
      lines.length - i ≤ n → i < lines.length → i < (gblLoop lines i acc c st).2 := by
  intro n
  induction n with
  | zero => intro i acc c st h1 h2; omega
  | succ n ih =>
    intro i acc c st h1 h2
    have hrec : ∀ (acc2 : List String) (c2 : Int) (st2 : Bool),
        i < (gblLoop lines (i + 1) acc2 c2 st2).2 := by
      intro acc2 c2 st2
      by_cases h3 : i + 1 < lines.length
      · have := ih (i + 1) acc2 c2 st2 (by omega) h3
        omega
      · rw [gblLoop, dif_neg h3]
        exact Nat.lt_succ_self i
    rw [gblLoop, dif_pos h2]
    dsimp only
    split
    · split
      · exact Nat.lt_succ_self i
      · exact hrec _ _ _
    · split
      · exact Nat.lt_succ_self i
      · exact hrec _ _ _

theorem get_block_lines_next_gt (lines : List String) (i : Nat)
    (h : i < lines.length) : i < (get_block_lines lines i).2 :=
  gblLoop_next_gt lines (lines.length - i) i [] 0 false (le_refl _) h

theorem gblLoop_snd_le (lines : List String) :
    ∀ (n i : Nat) (acc : List String) (c : Int) (st : Bool),
      lines.length - i ≤ n → (gblLoop lines i acc c st).2 ≤ max lines.length i := by
  intro n
  induction n with
  | zero =>
    intro i acc c st h1
    rw [gblLoop, dif_neg (by omega)]
    exact Nat.le_max_right _ _
  | succ n ih =>
    intro i acc c st h1
    by_cases h2 : i < lines.length
    · have hrec : ∀ (acc2 : List String) (c2 : Int) (st2 : Bool),
          (gblLoop lines (i + 1) acc2 c2 st2).2 ≤ max lines.length i := by
        intro acc2 c2 st2
        have := ih (i + 1) acc2 c2 st2 (by omega)
        omega
      rw [gblLoop, dif_pos h2]
      dsimp only
      split
      · split
        · simp; omega
        · exact hrec _ _ _
      · split
        · simp; omega
        · exact hrec _ _ _
    · rw [gblLoop, dif_neg h2]
      exact Nat.le_max_right _ _

theorem stopIdx_bounds (lines : List String) :
    ∀ (n i : Nat) (c : Int) (k : Nat), lines.length - i ≤ n →
      stopIdx lines i c = some k → i ≤ k ∧ k < lines.length := by
  intro n
  induction n with
  | zero =>
    intro i c k h1 h2
    rw [stopIdx, dif_neg (by omega)] at h2
    exact absurd h2 (by simp)
  | succ n ih =>
    intro i c k h1 h2
    by_cases hi : i < lines.length
    · rw [stopIdx, dif_pos hi] at h2
      dsimp only at h2
      split at h2
      · obtain rfl : i = k := by injection h2
        exact ⟨le_refl _, hi⟩
      · have := ih (i + 1) _ k (by omega) h2
        exact ⟨by omega, this.2⟩
    · rw [stopIdx, dif_neg hi] at h2
      exact absurd h2 (by simp)

theorem firstBrace_bounds (lines : List String) :
    ∀ (n i j : Nat), lines.length - i ≤ n →
      firstBrace lines i = some j →
      i ≤ j ∧ j < lines.length ∧ hasOpenBrace (lines.getD j "") = true := by
  intro n
  induction n with
  | zero =>
    intro i j h1 h2
    rw [firstBrace, dif_neg (by omega)] at h2
    exact absurd h2 (by simp)
  | succ n ih =>
    intro i j h1 h2
    by_cases hi : i < lines.length
    · rw [firstBrace, dif_pos hi] at h2
      split at h2
      · obtain rfl : i = j := by injection h2
        refine ⟨le_refl _, hi, ?_⟩
        rw [List.getD_eq_getElem _ _ hi]
        assumption
      · have := ih (i + 1) j (by omega) h2
        exact ⟨by omega, this.2⟩
    · rw [firstBrace, dif_neg hi] at h2
      exact absurd h2 (by simp)

theorem firstBrace_of_no_open (lines : List String) :
    ∀ (n i : Nat), lines.length - i ≤ n →
      (∀ l ∈ lines.drop i, hasOpenBrace l = false) →
      firstBrace lines i = none := by
  intro n
  induction n with
  | zero =>
    intro i h1 _
    rw [firstBrace, dif_neg (by omega)]
  | succ n ih =>
    intro i h1 h2
    by_cases hi : i < lines.length
    · rw [firstBrace, dif_pos hi]
      have hmem : lines[i] ∈ lines.drop i := by
        rw [List.drop_eq_getElem_cons hi]
        exact List.mem_cons_self _ _
      rw [if_neg (by simp [h2 _ hmem])]
      refine ih (i + 1) (by omega) ?_
      intro l hl
      refine h2 l ?_
      rw [List.drop_eq_getElem_cons hi]
      exact List.mem_cons_of_mem _ hl
    · rw [firstBrace, dif_neg hi]

theorem drop_take_cons (lines : List String) (i k : Nat) (hi : i < lines.length)
    (hk : i + 1 ≤ k) :
    (lines.drop i).take (k + 1 - i) = lines[i] :: (lines.drop (i + 1)).take (k + 1 - (i + 1)) := by
  rw [List.drop_eq_getElem_cons hi]
  have h1 : k + 1 - i = (k + 1 - (i + 1)) + 1 := by omega
  rw [h1, List.take_succ_cons]

theorem gblLoop_true (lines : List String) :
    ∀ (n i : Nat) (acc : List String) (c : Int), lines.length - i ≤ n →
      gblLoop lines i acc c true =
        (match stopIdx lines i c with
         | some k => (acc ++ (lines.drop i).take (k + 1 - i), k + 1)
         | none => (acc ++ lines.drop i, max lines.length i)) := by
  intro n
  induction n with
  | zero =>
    intro i acc c h1
    rw [gblLoop, dif_neg (by omega), stopIdx, dif_neg (by omega)]
    simp [List.drop_of_length_le (by omega : lines.length ≤ i)]
    omega
  | succ n ih =>
    intro i acc c h1
    by_cases hi : i < lines.length
    · rw [gblLoop, dif_pos hi, stopIdx, dif_pos hi]
      dsimp only
      simp only [Bool.true_or, if_true, Bool.true_and]
      by_cases hc : c + lineDelta lines[i] ≤ 0
      · rw [if_pos (by simp [hc]), if_pos hc]
        dsimp only
        rw [show i + 1 - i = 1 from by omega, List.drop_eq_getElem_cons hi,
          List.take_succ_cons, List.take_zero]
      · rw [if_neg (by simp [hc]), if_neg hc]
        rw [ih (i + 1) _ _ (by omega)]
        cases hk : stopIdx lines (i + 1) (c + lineDelta lines[i]) with
        | some k =>
          dsimp only
          have hb := stopIdx_bounds lines (lines.length - (i + 1)) (i + 1) _ k
            (le_refl _) hk
          rw [drop_take_cons lines i k hi hb.1]
          simp
        | none =>
          dsimp only
          rw [List.drop_eq_getElem_cons hi]
          simp
          omega
    · rw [gblLoop, dif_neg hi, stopIdx, dif_neg hi]
      simp [List.drop_of_length_le (by omega : lines.length ≤ i)]
      omega

theorem gblLoop_false_open (lines : List String) (i : Nat) (acc : List String)
    (c : Int) (hi : i < lines.length) (hop : hasOpenBrace lines[i] = true) :
    gblLoop lines i acc c false = gblLoop lines i acc c true := by
  rw [gblLoop, dif_pos hi, gblLoop, dif_pos hi]
  dsimp only
  simp [hop]

theorem gblLoop_false (lines : List String) :
    ∀ (n i : Nat) (acc : List String) (c : Int), lines.length - i ≤ n →
      gblLoop lines i acc c false =
        (match firstBrace lines i with
         | none => (acc ++ lines.drop i, max lines.length i)
         | some j =>
           match stopIdx lines j c with
           | some k => (acc ++ (lines.drop i).take (k + 1 - i), k + 1)
           | none => (acc ++ lines.drop i, lines.length)) := by
  intro n
  induction n with
  | zero =>
    intro i acc c h1
    rw [gblLoop, dif_neg (by omega), firstBrace, dif_neg (by omega)]
    simp [List.drop_of_length_le (by omega : lines.length ≤ i)]
    omega
  | succ n ih =>
    intro i acc c h1
    by_cases hi : i < lines.length
    · by_cases hop : hasOpenBrace lines[i] = true
      · have hfb : firstBrace lines i = some i := by
          rw [firstBrace, dif_pos hi, if_pos hop]
        rw [gblLoop_false_open lines i acc c hi hop,
          gblLoop_true lines (lines.length - i) i acc c (le_refl _), hfb]
        cases hk : stopIdx lines i c with
        | some k => simp [hk]
        | none => simp [hk, Nat.max_eq_left (le_of_lt hi)]
      · have hop' : hasOpenBrace lines[i] = false := by simpa using hop
        rw [gblLoop, dif_pos hi]
        dsimp only
        rw [hop']
        simp only [Bool.false_or, Bool.false_and, Bool.false_eq_true, if_false]
        conv_rhs => rw [firstBrace, dif_pos hi, if_neg hop]
        rw [ih (i + 1) _ _ (by omega)]
        cases hj : firstBrace lines (i + 1) with
        | none =>
          simp
          omega
        | some j =>
          have hjb := firstBrace_bounds lines (lines.length - (i + 1)) (i + 1) j
            (le_refl _) hj
          cases hk : stopIdx lines j c with
          | some k =>
            have hkb := stopIdx_bounds lines (lines.length - j) j _ k (le_refl _) hk
            simp [hk, drop_take_cons lines i k hi (by omega : i + 1 ≤ k)]
          | none => simp [hk]
    · rw [gblLoop, dif_neg hi, firstBrace, dif_neg hi]
      simp [List.drop_of_length_le (by omega : lines.length ≤ i)]
      omega

theorem get_block_lines_eq_gblRef (lines : List String) (startIndex : Nat) :
    get_block_lines lines startIndex = gblRef lines startIndex := by
  rw [get_block_lines, gblLoop_false lines (lines.length - startIndex) startIndex []
    0 (le_refl _), gblRef]
  cases hj : firstBrace lines startIndex with
  | none => simp
  | some j =>
    cases hk : stopIdx lines j 0 with
    | some k => simp
    | none => simp

theorem depthRun_succ (lines : List String) (s t : Nat) (h : s + t < lines.length) :
    depthRun lines s (t + 1) = depthRun lines s t + lineDelta lines[s + t] := by
  unfold depthRun
  rw [List.take_succ]
  have h2 : (lines.drop s)[t]? = some lines[s + t] := by
    rw [List.getElem?_drop]
    exact List.getElem?_eq_getElem h
  rw [h2]
  simp

theorem stopIdx_reach_aux (lines : List String) (s m : Nat)
    (hlen : s + m ≤ lines.length)
    (hpos : ∀ k, 0 < k → k < m → 0 < depthRun lines s k)
    (hzero : depthRun lines s m ≤ 0) :
    ∀ (d t : Nat), t + d = m → t < m →
      stopIdx lines (s + t) (depthRun lines s t) = some (s + (m - 1)) := by
  intro d
  induction d with
  | zero => intro t h1 h2; omega
  | succ d ih =>
    intro t h1 h2
    have hst : s + t < lines.length := by omega
    rw [stopIdx, dif_pos hst]
    dsimp only
    rw [← depthRun_succ lines s t hst]
    by_cases hd : t + 1 = m
    · rw [if_pos (by rw [hd]; exact hzero)]
      congr 1
      omega
    · have hp := hpos (t + 1) (by omega) (by omega)
      rw [if_neg (by omega)]
      have hrec := ih (t + 1) (by omega) (by omega)
      rw [show s + t + 1 = s + (t + 1) from by omega]
      exact hrec

theorem stopIdx_reaches (lines : List String) (s m : Nat) (hm : 1 ≤ m)
    (hlen : s + m ≤ lines.length)
    (hpos : ∀ k, 0 < k → k < m → 0 < depthRun lines s k)
    (hzero : depthRun lines s m ≤ 0) :
    stopIdx lines s 0 = some (s + (m - 1)) := by
  have h0 : depthRun lines s 0 = 0 := by simp [depthRun]
  have haux := stopIdx_reach_aux lines s m hlen hpos hzero m 0 (by omega) (by omega)
  rw [h0] at haux
  simpa using haux

theorem gblFuelLoop_adequate (lines : List String) :
    ∀ (f i : Nat) (acc : List String) (c : Int) (st : Bool),
      lines.length - i < f →
      gblFuelLoop f lines i acc c st = some (gblLoop lines i acc c st) := by
  intro f
  induction f with
  | zero => intro i acc c st h; omega
  | succ f ih =>
    intro i acc c st h
    by_cases hi : i < lines.length
    · rw [gblFuelLoop, dif_pos hi, gblLoop, dif_pos hi]
      dsimp only
      split
      · split
        · rfl
        · exact ih (i + 1) _ _ _ (by omega)
      · split
        · rfl
        · exact ih (i + 1) _ _ _ (by omega)
    · rw [gblFuelLoop, dif_neg hi, gblLoop, dif_neg hi]

theorem checkLoop_res_step (lines : List String) (i : Nat) (h : i < lines.length)
    (hres : resCond (trimL lines[i].toList) = true) :
    checkLoop lines i =
      (if blockHasTags (get_block_lines lines i).1 then []
       else [Warning.resourceMissing i]) ++ checkLoop lines (get_block_lines lines i).2 := by
  rw [checkLoop, dif_pos h]
  dsimp only
  rw [if_pos hres]

theorem checkLoop_mod_step (lines : List String) (i : Nat) (h : i < lines.length)
    (nm0 : List Char) (hres : resCond (trimL lines[i].toList) = false)
    (hmod : startsWithL ("module".toList) (trimL lines[i].toList) = true)
    (hnm : moduleNameOf (trimL lines[i].toList) = some nm0)
    (hkw : MODULE_KEYWORDS.any
      (fun kw => containsL kw.toList (nm0.map Char.toLower)) = true) :
    checkLoop lines i =
      (if blockHasTags (get_block_lines lines i).1 then []
       else [Warning.moduleMissing i (nm0.map Char.toLower)])
        ++ checkLoop lines (get_block_lines lines i).2 := by
  rw [checkLoop, dif_pos h]
  dsimp only
  rw [if_neg (by simpa using hres), if_pos hmod, hnm]
  simp only [hkw, if_true]

theorem checkLoop_mod_skip (lines : List String) (i : Nat) (h : i < lines.length)
    (nm0 : List Char) (hres : resCond (trimL lines[i].toList) = false)
    (hmod : startsWithL ("module".toList) (trimL lines[i].toList) = true)
    (hnm : moduleNameOf (trimL lines[i].toList) = some nm0)
    (hkw : MODULE_KEYWORDS.any
      (fun kw => containsL kw.toList (nm0.map Char.toLower)) = false) :
    checkLoop lines i = checkLoop lines (i + 1) := by
  rw [checkLoop, dif_pos h]
  dsimp only
  rw [if_neg (by simpa using hres), if_pos hmod, hnm]
  simp only [hkw, Bool.false_eq_true, if_false]

theorem checkLoop_mod_none (lines : List String) (i : Nat) (h : i < lines.length)
    (hres : resCond (trimL lines[i].toList) = false)
    (hmod : startsWithL ("module".toList) (trimL lines[i].toList) = true)
    (hnm : moduleNameOf (trimL lines[i].toList) = none) :
    checkLoop lines i = checkLoop lines (i + 1) := by
  rw [checkLoop, dif_pos h]
  dsimp only
  rw [if_neg (by simpa using hres), if_pos hmod, hnm]

theorem checkLoop_other (lines : List String) (i : Nat) (h : i < lines.length)
    (hres : resCond (trimL lines[i].toList) = false)
    (hmod : startsWithL ("module".toList) (trimL lines[i].toList) = false) :
    checkLoop lines i = checkLoop lines (i + 1) := by
  rw [checkLoop, dif_pos h]
  dsimp only
  rw [if_neg (by simpa using hres), if_neg (by simpa using hmod)]

theorem checkLoop_idx_ge (lines : List String) (i : Nat) :
    ∀ w ∈ checkLoop lines i, i ≤ w.lineIdx := by
  induction i using checkLoop.induct lines with
  | case1 x h stripped hres r IH =>
    have hs : stripped = trimL lines[x].toList := rfl
    rw [hs] at hres
    intro w hw
    rw [checkLoop_res_step lines x h hres] at hw
    rcases List.mem_append.1 hw with h1 | h1
    · have hw2 : w = Warning.resourceMissing x := by
        by_cases hb : blockHasTags (get_block_lines lines x).1 <;> simp [hb] at h1
        exact h1
      subst hw2
      exact le_refl _
    · have hnext := get_block_lines_next_gt lines x h
      exact le_trans (le_of_lt hnext) (IH w h1)
  | case2 x h stripped hres hmod nm0 hnm nm hkw r IH =>
    have hs : stripped = trimL lines[x].toList := rfl
    have hn : nm = nm0.map Char.toLower := rfl
    rw [hs] at hres hmod hnm
    rw [hn] at hkw
    intro w hw
    rw [checkLoop_mod_step lines x h nm0 (by simpa using hres) hmod hnm hkw] at hw
    rcases List.mem_append.1 hw with h1 | h1
    · have hw2 : w = Warning.moduleMissing x (nm0.map Char.toLower) := by
        by_cases hb : blockHasTags (get_block_lines lines x).1 <;> simp [hb] at h1
        exact h1
      subst hw2
      exact le_refl _
    · have hnext := get_block_lines_next_gt lines x h
      exact le_trans (le_of_lt hnext) (IH w h1)
  | case3 x h stripped hres hmod nm0 hnm nm hkw IH =>
    have hs : stripped = trimL lines[x].toList := rfl
    have hn : nm = nm0.map Char.toLower := rfl
    rw [hs] at hres hmod hnm
    rw [hn] at hkw
    intro w hw
    rw [checkLoop_mod_skip lines x h nm0 (by simpa using hres) hmod hnm
      (by simpa using hkw)] at hw
    exact le_trans (by omega) (IH w hw)
  | case4 x h stripped hres hmod hnm IH =>
    have hs : stripped = trimL lines[x].toList := rfl
    rw [hs] at hres hmod hnm
    intro w hw
    rw [checkLoop_mod_none lines x h (by simpa using hres) hmod hnm] at hw
    exact le_trans (by omega) (IH w hw)
  | case5 x h stripped hres hmod IH =>
    have hs : stripped = trimL lines[x].toList := rfl
    rw [hs] at hres hmod
    intro w hw
    rw [checkLoop_other lines x h (by simpa using hres) (by simpa using hmod)] at hw
    exact le_trans (by omega) (IH w hw)
  | case6 x h =>
    intro w hw
    rw [checkLoop, dif_neg h] at hw
    exact absurd hw (by simp)

/-! ### Claims about the Block Extractor and the Tag Presence Checker -/

/-- C1 counterexample: the claim says the depth counter accumulates the brace
delta of every visited line, including lines visited before the first opening
brace.  On input with a closing brace before any opening brace the code
(which only counts from the first opening-brace line) visits all four lines,
while the claimed algorithm stops after two. -/
theorem c1_counterexample :
    get_block_lines ["\x7d", "\x7b", "x", "\x7d"] 0 = (["\x7d", "\x7b", "x", "\x7d"], 4) ∧
    gblClaim ["\x7d", "\x7b", "x", "\x7d"] 0 = (["\x7d", "\x7b"], 2) ∧
    get_block_lines ["\x7d", "\x7b", "x", "\x7d"] 0 ≠ gblClaim ["\x7d", "\x7b", "x", "\x7d"] 0 := by
  have h1 : get_block_lines ["\x7d", "\x7b", "x", "\x7d"] 0
      = (["\x7d", "\x7b", "x", "\x7d"], 4) := by
    simp +decide [get_block_lines, gblLoop]
  have h2 : gblClaim ["\x7d", "\x7b", "x", "\x7d"] 0 = (["\x7d", "\x7b"], 2) := by
    simp +decide [gblClaim, gblClaimLoop]
  refine ⟨h1, h2, ?_⟩
  rw [h1, h2]
  decide

/-- C1 (amended): `get_block_lines` maintains the depth counter and started
flag as claimed, except that the depth delta is accumulated only from the
first line on which an opening brace is observed onwards; lines visited
before that line are appended to the output without affecting depth.  This
is stated as equality with the reference extractor `gblRef`, which finds the
first opening-brace line, runs the depth count from there, and stops
inclusively at the first line where the depth is `≤ 0` (or end-of-input). -/
theorem c1_block_extractor_amended (lines : List String) (startIndex : Nat) :
    get_block_lines lines startIndex = gblRef lines startIndex :=
  get_block_lines_eq_gblRef lines startIndex

/-- C3: on a balanced well-formed block — the start line contains an opening
delimiter, the depth run is strictly positive on every proper prefix and
zero after `m` lines — `get_block_lines` returns exactly the lines
`[start, start+m)` and `nextIndex = start + m`, and `start + m` is minimal:
no proper prefix of the range has delimiter counts summing to zero. -/
theorem c3_balanced_minimal (lines : List String) (s m : Nat) (hm : 1 ≤ m)
    (hlen : s + m ≤ lines.length)
    (hopen : hasOpenBrace (lines.getD s "") = true)
    (hpos : ∀ k, 0 < k → k < m → 0 < depthRun lines s k)
    (hzero : depthRun lines s m = 0) :
    get_block_lines lines s = ((lines.drop s).take m, s + m) ∧
    ∀ k, 0 < k → k < m → depthRun lines s k ≠ 0 := by
  constructor
  · rw [get_block_lines_eq_gblRef, gblRef]
    have hfb : firstBrace lines s = some s := by
      rw [firstBrace, dif_pos (by omega)]
      rw [List.getD_eq_getElem _ _ (by omega)] at hopen
      rw [if_pos hopen]
    have hsi := stopIdx_reaches lines s m hm hlen hpos (le_of_eq hzero)
    rw [hfb]
    simp only [hsi]
    simp [Prod.ext_iff]
    constructor
    · rw [show s + (m - 1) + 1 - s = m from by omega]
    · omega
  · intro k h1 h2
    exact (hpos k h1 h2).ne'

/-- C3 witness: a two-line balanced block. -/
theorem c3_witness :
    get_block_lines ["a \x7b", "\x7d"] 0 = (((["a \x7b", "\x7d"] : List String).drop 0).take 2, 0 + 2) ∧
    ∀ k, 0 < k → k < 2 → depthRun ["a \x7b", "\x7d"] 0 k ≠ 0 :=
  c3_balanced_minimal ["a \x7b", "\x7d"] 0 2 (by decide) (by decide) (by decide)
    (fun k h1 h2 => by
      have hk : k = 1 := by omega
      subst hk
      decide)
    (by decide)

/-- C4: when no line from `startIndex` onwards contains an opening delimiter,
the extractor returns the entire remaining line sequence and
`nextIndex = len(lines)`, as a normal return. -/
theorem c4_no_open_delimiter (lines : List String) (startIndex : Nat)
    (hs : startIndex ≤ lines.length)
    (hnone : ∀ l ∈ lines.drop startIndex, hasOpenBrace l = false) :
    get_block_lines lines startIndex = (lines.drop startIndex, lines.length) := by
  rw [get_block_lines_eq_gblRef, gblRef,
    firstBrace_of_no_open lines (lines.length - startIndex) startIndex (le_refl _) hnone]
  simp [Nat.max_eq_left hs]

/-- C4 witness: two lines without braces. -/
theorem c4_witness :
    get_block_lines ["x", "y"] 0 = ((["x", "y"] : List String).drop 0, 2) :=
  c4_no_open_delimiter ["x", "y"] 0 (by decide) (by decide)

/-- C5: the extractor loop terminates on every finite line sequence and
start index within `len - start + 1` iterations (the fuel-indexed loop
returns `some`), and the returned next index never exceeds
`max len startIndex` — on malformed input the loop stops at end-of-input
instead of hanging. -/
theorem c5_terminates (lines : List String) (startIndex : Nat) :
    gblFuelLoop (lines.length - startIndex + 1) lines startIndex [] 0 false
      = some (get_block_lines lines startIndex) ∧
    (get_block_lines lines startIndex).2 ≤ max lines.length startIndex :=
  ⟨gblFuelLoop_adequate lines _ startIndex [] 0 false (by omega),
   gblLoop_snd_le lines (lines.length - startIndex) startIndex [] 0 false (le_refl _)⟩

/-- C8: for `startIndex < len(lines)` the extractor returns the contiguous
slice `lines[startIndex : nextIndex]` with `startIndex < nextIndex ≤
len(lines)`, so the scanning cursor strictly advances and successive
extractions never overlap. -/
theorem c8_slice_progress (lines : List String) (startIndex : Nat)
    (h : startIndex < lines.length) :
    startIndex < (get_block_lines lines startIndex).2 ∧
    (get_block_lines lines startIndex).2 ≤ lines.length ∧
    (get_block_lines lines startIndex).1 =
      (lines.drop startIndex).take ((get_block_lines lines startIndex).2 - startIndex) := by
  refine ⟨get_block_lines_next_gt lines startIndex h, ?_, ?_⟩
  · have hle := gblLoop_snd_le lines (lines.length - startIndex) startIndex [] 0 false (le_refl _)
    have hmax : max lines.length startIndex = lines.length := Nat.max_eq_left (le_of_lt h)
    rw [get_block_lines]
    omega
  · rw [get_block_lines_eq_gblRef, gblRef]
    cases hj : firstBrace lines startIndex with
    | none =>
      simp only []
      rw [List.take_of_length_le (by simp only [List.length_drop]; omega)]
    | some j =>
      cases hk : stopIdx lines j 0 with
      | some k => simp [hk]
      | none =>
        simp only [hk]
        rw [List.take_of_length_le (by simp only [List.length_drop]; omega)]

/-- C8 witness: a concrete two-line resource block. -/
theorem c8_witness :
    0 < (get_block_lines ["a \x7b", "\x7d"] 0).2 ∧
    (get_block_lines ["a \x7b", "\x7d"] 0).2 ≤ (["a \x7b", "\x7d"] : List String).length ∧
    (get_block_lines ["a \x7b", "\x7d"] 0).1 =
      ((["a \x7b", "\x7d"] : List String).drop 0).take
        ((get_block_lines ["a \x7b", "\x7d"] 0).2 - 0) :=
  c8_slice_progress ["a \x7b", "\x7d"] 0 (by decide)

/-- C6: when the Tag Presence Checker processes a resource declaration at
line `i`, a "missing" Finding for that block is emitted iff no
non-comment line of the extracted block matches the tag-assignment
pattern (`tags` preceded by a word boundary, then optional whitespace and
an equals sign, case-insensitive); commented tag assignments do not count. -/
theorem c6_tag_presence (lines : List String) (i : Nat) (h : i < lines.length)
    (hres : resCond (trimL lines[i].toList) = true) :
    Warning.resourceMissing i ∈ checkLoop lines i ↔
      ¬ ∃ l ∈ (get_block_lines lines i).1,
          tagsSearch l.toList = true ∧ isCommentL l = false := by
  rw [checkLoop_res_step lines i h hres]
  have hnot : Warning.resourceMissing i ∉ checkLoop lines (get_block_lines lines i).2 := by
    intro hmem
    have hge := checkLoop_idx_ge lines (get_block_lines lines i).2 _ hmem
    have hnext := get_block_lines_next_gt lines i h
    simp [Warning.lineIdx] at hge
    omega
  constructor
  · intro hmem
    rcases List.mem_append.1 hmem with h1 | h1
    · by_cases hb : blockHasTags (get_block_lines lines i).1
      · simp [hb] at h1
      · intro hex
        apply hb
        rcases hex with ⟨l, hl, ht, hc⟩
        refine List.any_eq_true.2 ⟨l, hl, ?_⟩
        rw [hc, ht]
        decide
    · exact absurd h1 hnot
  · intro hnone
    have hb : blockHasTags (get_block_lines lines i).1 = false := by
      by_contra hb'
      have hb2 : blockHasTags (get_block_lines lines i).1 = true := by
        revert hb'
        cases blockHasTags (get_block_lines lines i).1 <;> simp
      rcases List.any_eq_true.1 hb2 with ⟨l, hl, hp⟩
      simp only [Bool.and_eq_true, Bool.not_eq_true'] at hp
      exact hnone ⟨l, hl, hp.2, hp.1⟩
    simp [hb]

/-- C6 witness: a resource block without tags. -/
theorem c6_witness :
    Warning.resourceMissing 0 ∈ checkLoop ["resource \"aws_s3\" \"b\" \x7b", "\x7d"] 0 ↔
      ¬ ∃ l ∈ (get_block_lines ["resource \"aws_s3\" \"b\" \x7b", "\x7d"] 0).1,
          tagsSearch l.toList = true ∧ isCommentL l = false :=
  c6_tag_presence ["resource \"aws_s3\" \"b\" \x7b", "\x7d"] 0 (by decide) (by decide)

/-- C7: when the checker processes a module declaration line with an
extractable quoted name (and the line is not classified as a resource), the
lower-cased name is tested for the keyword substrings: on a match the
module's block is extracted and checked for tags and the cursor advances to
the block's next index; otherwise no block is consumed and the cursor
advances by exactly one line. -/
theorem c7_module_keyword (lines : List String) (i : Nat) (h : i < lines.length)
    (nm0 : List Char)
    (hres : resCond (trimL lines[i].toList) = false)
    (hmod : startsWithL ("module".toList) (trimL lines[i].toList) = true)
    (hnm : moduleNameOf (trimL lines[i].toList) = some nm0) :
    (MODULE_KEYWORDS.any (fun kw => containsL kw.toList (nm0.map Char.toLower)) = true →
      checkLoop lines i =
        (if blockHasTags (get_block_lines lines i).1 then []
         else [Warning.moduleMissing i (nm0.map Char.toLower)])
          ++ checkLoop lines (get_block_lines lines i).2) ∧
    (MODULE_KEYWORDS.any (fun kw => containsL kw.toList (nm0.map Char.toLower)) = false →
      checkLoop lines i = checkLoop lines (i + 1)) :=
  ⟨fun hkw => checkLoop_mod_step lines i h nm0 hres hmod hnm hkw,
   fun hkw => checkLoop_mod_skip lines i h nm0 hres hmod hnm hkw⟩

/-- C7 witness: a module named rds_primary triggers a tag check; one named
networking advances the cursor by one line only. -/
theorem c7_witness :
    (checkLoop ["module \"rds_primary\" \x7b", "\x7d"] 0 =
      (if blockHasTags (get_block_lines ["module \"rds_primary\" \x7b", "\x7d"] 0).1 then []
       else [Warning.moduleMissing 0 (("rds_primary".toList).map Char.toLower)])
        ++ checkLoop ["module \"rds_primary\" \x7b", "\x7d"]
            (get_block_lines ["module \"rds_primary\" \x7b", "\x7d"] 0).2) ∧
    (checkLoop ["module \"networking\" \x7b", "\x7d"] 0 =
      checkLoop ["module \"networking\" \x7b", "\x7d"] 1) :=
  ⟨(c7_module_keyword ["module \"rds_primary\" \x7b", "\x7d"] 0 (by decide)
      ("rds_primary".toList) (by decide) (by decide) (by decide)).1 (by decide),
   (c7_module_keyword ["module \"networking\" \x7b", "\x7d"] 0 (by decide)
      ("networking".toList) (by decide) (by decide) (by decide)).2 (by decide)⟩

/-! ### Helper lemmas about the stage-block capture -/

theorem mapCons_eq_some (c : Char) (o : Option (List Char × List Char))
    (m rest : List Char)
    (h : (o.map (fun p => (c :: p.1, p.2))) = some (m, rest)) :
    ∃ m2, o = some (m2, rest) ∧ m = c :: m2 := by
  cases o with
  | none => simp at h
  | some p =>
    simp at h
    exact ⟨p.1, by rw [← h.2], h.1.symm⟩

theorem findAllAux_mem {α : Type} (f : List Char → Option (α × List Char)) :
    ∀ cs, ∀ b ∈ findAllAux f cs, ∃ u rest, f u = some (b, rest) := by
  intro cs
  induction cs using findAllAux.induct f with
  | case1 a snd hf =>
    intro b hb
    rw [findAllAux, hf] at hb
    simp at hb
    subst hb
    exact ⟨[], snd, hf⟩
  | case2 hf =>
    intro b hb
    rw [findAllAux, hf] at hb
    simp at hb
  | case3 c cs a snd hf hlen IH =>
    intro b hb
    have he : findAllAux f (c :: cs) = a :: findAllAux f snd := by
      rw [findAllAux, hf]
      simp [hlen]
    rw [he] at hb
    rcases List.mem_cons.1 hb with rfl | hb2
    · exact ⟨c :: cs, snd, hf⟩
    · exact IH b hb2
  | case4 c cs a snd hf hlen IH =>
    intro b hb
    have he : findAllAux f (c :: cs) = a :: findAllAux f cs := by
      rw [findAllAux, hf]
      simp [hlen]
    rw [he] at hb
    rcases List.mem_cons.1 hb with rfl | hb2
    · exact ⟨c :: cs, snd, hf⟩
    · exact IH b hb2
  | case5 c cs hf IH =>
    intro b hb
    have he : findAllAux f (c :: cs) = findAllAux f cs := by
      rw [findAllAux, hf]
    rw [he] at hb
    exact IH b hb

theorem stageTail_shape (cs t rest : List Char) (h : stageTail cs = some (t, rest)) :
    ∃ ws body, t = ws ++ '\x7b' :: (body ++ ['\x7d']) ∧
      (∀ x ∈ ws, isSpc x = true) ∧ ∀ x ∈ body, x ≠ '\x7d' := by
  unfold stageTail at h
  split at h
  · split at h
    · dsimp only at h
      simp only [Option.some.injEq, Prod.mk.injEq] at h
      refine ⟨_, _, h.1.symm, ?_, ?_⟩
      · intro x hx
        exact List.mem_takeWhile_imp hx
      · intro x hx
        have := List.mem_takeWhile_imp hx
        simpa using this
    · exact absurd h (by simp)
  · exact absurd h (by simp)

theorem stageNameScan_shape : ∀ (cs m rest : List Char),
    stageNameScan cs = some (m, rest) →
    ∃ nmT qc ws body,
      m = nmT ++ qc :: ')' :: (ws ++ '\x7b' :: (body ++ ['\x7d'])) ∧
      isQuote qc = true ∧ (∀ x ∈ ws, isSpc x = true) ∧ ∀ x ∈ body, x ≠ '\x7d' := by
  intro cs
  induction cs with
  | nil => intro m rest h; simp [stageNameScan] at h
  | cons c cs ih =>
    intro m rest h
    rw [stageNameScan] at h
    by_cases hcond : isQuote c = true ∧ cs.head? = some ')'
    · rw [if_pos hcond] at h
      split at h
      · rename_i t rest2 hst
        simp only [Option.some.injEq, Prod.mk.injEq] at h
        obtain ⟨ws, body, ht, hws, hbody⟩ := stageTail_shape cs.tail t rest2 hst
        refine ⟨[], c, ws, body, ?_, hcond.1, hws, hbody⟩
        rw [← h.1, ht]
        rfl
      · obtain ⟨m2, ho, hm⟩ := mapCons_eq_some c _ _ _ h
        obtain ⟨nmT, qc, ws, body, hm2, hqc, hws, hbody⟩ := ih m2 rest ho
        exact ⟨c :: nmT, qc, ws, body, by rw [hm, hm2]; rfl, hqc, hws, hbody⟩
    · rw [if_neg hcond] at h
      obtain ⟨m2, ho, hm⟩ := mapCons_eq_some c _ _ _ h
      obtain ⟨nmT, qc, ws, body, hm2, hqc, hws, hbody⟩ := ih m2 rest ho
      exact ⟨c :: nmT, qc, ws, body, by rw [hm, hm2]; rfl, hqc, hws, hbody⟩

theorem tryStage_shape (u b rest : List Char) (h : tryStage u = some (b, rest)) :
    ∃ ws1 q name qc ws2 body,
      b = ("stage".toList) ++ ws1 ++ '(' :: q ::
            (name ++ qc :: ')' :: (ws2 ++ '\x7b' :: (body ++ ['\x7d']))) ∧
      isQuote q = true ∧ isQuote qc = true ∧ name ≠ [] ∧
      (∀ x ∈ ws1, isSpc x = true) ∧ (∀ x ∈ ws2, isSpc x = true) ∧
      ∀ x ∈ body, x ≠ '\x7d' := by
  unfold tryStage at h
  split at h
  · rename_i rest0
    dsimp only at h
    split at h
    · rename_i r2 hdrop
      split at h
      · rename_i q c0 r4
        by_cases hq : isQuote q
        · rw [if_pos hq] at h
          split at h
          · rename_i nm rest5 hsc
            simp only [Option.some.injEq, Prod.mk.injEq] at h
            obtain ⟨nmT, qc, ws2, body, hm, hqc, hws2, hbody⟩ :=
              stageNameScan_shape r4 nm rest5 hsc
            refine ⟨rest0.takeWhile isSpc, q, c0 :: nmT, qc, ws2, body, ?_, hq, hqc,
              (by simp), ?_, hws2, hbody⟩
            · rw [← h.1, hm]
              rfl
            · intro x hx
              exact List.mem_takeWhile_imp hx
          · exact absurd h (by simp)
        · rw [if_neg hq] at h
          exact absurd h (by simp)
      all_goals exact absurd h (by simp)
    · exact absurd h (by simp)
  · exact absurd h (by simp)

/-! ### Claims about the Stage/Tool Extractor capture -/

/-- C2 counterexample: the stage regex captures with a lazy body, so for a
stage containing a nested steps block the captured text has two opening
braces but only one closing brace — the capture is not brace-balanced and
does not contain the nested block in full, contradicting the claimed
equivalence with brace-balance extraction. -/
theorem c2_counterexample :
    findStages (("stage(\"Build\") \x7b steps \x7b echo \x7d \x7d").toList) =
      [("stage(\"Build\") \x7b steps \x7b echo \x7d").toList] ∧
    (("stage(\"Build\") \x7b steps \x7b echo \x7d").toList).count '\x7b' = 2 ∧
    (("stage(\"Build\") \x7b steps \x7b echo \x7d").toList).count '\x7d' = 1 := by
  refine ⟨?_, by decide, by decide⟩
  simp +decide [findStages, findAllAux, tryStage, stageNameScan, stageTail]

/-- C2 (amended): every captured stage block consists of the header
(`stage`, optional whitespace, a parenthesised quoted name), optional
whitespace, an opening brace, a body containing NO closing-brace character,
and one final closing brace: the capture extends only to the first closing
brace after the stage's opening brace, so a nested inner block is truncated
(its opening brace is captured, its closing brace ends the capture) and
nested braces are not balanced within the capture. -/
theorem c2_stage_capture_amended (content : List Char) :
    ∀ b ∈ findStages content,
      ∃ ws1 q name qc ws2 body,
        b = ("stage".toList) ++ ws1 ++ '(' :: q ::
              (name ++ qc :: ')' :: (ws2 ++ '\x7b' :: (body ++ ['\x7d']))) ∧
        isQuote q = true ∧ isQuote qc = true ∧ name ≠ [] ∧
        (∀ x ∈ ws1, isSpc x = true) ∧ (∀ x ∈ ws2, isSpc x = true) ∧
        ∀ x ∈ body, x ≠ '\x7d' := by
  intro b hb
  obtain ⟨u, rest, hu⟩ := findAllAux_mem tryStage content b hb
  exact tryStage_shape u b rest hu

/-- C2 witness: the amended statement applied to the concrete capture of
the counterexample input. -/
theorem c2_witness :
    (("stage(\"Build\") \x7b steps \x7b echo \x7d").toList ∈
        findStages (("stage(\"Build\") \x7b steps \x7b echo \x7d \x7d").toList)) ∧
    (∃ ws1 q name qc ws2 body,
      ("stage(\"Build\") \x7b steps \x7b echo \x7d").toList =
        ("stage".toList) ++ ws1 ++ '(' :: q ::
          (name ++ qc :: ')' :: (ws2 ++ '\x7b' :: (body ++ ['\x7d']))) ∧
      isQuote q = true ∧ isQuote qc = true ∧ name ≠ [] ∧
      (∀ x ∈ ws1, isSpc x = true) ∧ (∀ x ∈ ws2, isSpc x = true) ∧
      ∀ x ∈ body, x ≠ '\x7d') := by
  have hmem : ("stage(\"Build\") \x7b steps \x7b echo \x7d").toList ∈
      findStages (("stage(\"Build\") \x7b steps \x7b echo \x7d \x7d").toList) := by
    have he : findStages (("stage(\"Build\") \x7b steps \x7b echo \x7d \x7d").toList) =
        [("stage(\"Build\") \x7b steps \x7b echo \x7d").toList] := by
      simp +decide [findStages, findAllAux, tryStage, stageNameScan, stageTail]
    rw [he]
    exact List.mem_singleton.2 rfl
  exact ⟨hmem, c2_stage_capture_amended _ _ hmem⟩

/-! ### Helper lemmas for the per-file summary aggregation -/

theorem splitSep_sepFree : ∀ (x : List Char), ',' ∉ x → '\n' ∉ x →
    splitSep x = [x] := by
  intro x
  induction x with
  | nil => intro _ _; rw [splitSep]
  | cons c cs ih =>
    intro h1 h2
    simp only [List.mem_cons, not_or] at h1 h2
    rw [splitSep, if_neg (fun hif => h1.1 hif.1.symm), if_neg (fun hif => h2.1 hif.symm)]
    rw [ih h1.2 h2.2]

theorem splitSep_append : ∀ (x t : List Char), ',' ∉ x → '\n' ∉ x →
    splitSep (x ++ ',' :: ' ' :: t) = x :: splitSep t := by
  intro x
  induction x with
  | nil =>
    intro t _ _
    rw [List.nil_append, splitSep]
    simp
  | cons c cs ih =>
    intro t h1 h2
    simp only [List.mem_cons, not_or] at h1 h2
    rw [List.cons_append, splitSep,
      if_neg (fun hif => h1.1 hif.1.symm), if_neg (fun hif => h2.1 hif.symm)]
    rw [ih t h1.2 h2.2]

theorem split_join : ∀ (ns : List (List Char)),
    (∀ n ∈ ns, n ≠ [] ∧ ',' ∉ n ∧ '\n' ∉ n) →
    (splitSep (joinCS ns)).filter (fun t => !t.isEmpty) = ns := by
  intro ns
  induction ns with
  | nil =>
    intro _
    rw [joinCS, splitSep]
    rfl
  | cons x rest ih =>
    intro h
    cases rest with
    | nil =>
      have hx := h x (by simp)
      rw [joinCS, splitSep_sepFree x hx.2.1 hx.2.2]
      simp [hx.1]
    | cons y rest2 =>
      have hx := h x (by simp)
      rw [joinCS, splitSep_append x (joinCS (y :: rest2)) hx.2.1 hx.2.2,
        List.filter_cons, if_pos (by simp [hx.1]),
        ih (fun n hn => h n (List.mem_cons_of_mem _ hn))]

theorem tool_keywords_good :
    ∀ s ∈ TOOL_KEYWORDS, s.toList ≠ [] ∧ ',' ∉ s.toList ∧ '\n' ∉ s.toList := by
  decide

theorem parseStageBlock_shape (block : List Char)
    (r : List Char × Nat × List Nat × List Char)
    (h : parseStageBlock block = some r) :
    r.2.2.1 = TOOL_KEYWORDS_LOWER.map (fun t => toolCount t (block.map Char.toLower)) ∧
    r.2.2.2 = joinCS (((TOOL_KEYWORDS.zip r.2.2.1).filterMap
        (fun p => if 0 < p.2 then some p.1 else none)).map String.toList) := by
  unfold parseStageBlock at h
  split at h
  · dsimp only at h
    simp only [Option.some.injEq] at h
    subst h
    exact ⟨rfl, rfl⟩
  · exact absurd h (by simp)

theorem parse_rows_shape (content : List Char) :
    ∀ r ∈ (findStages content).filterMap parseStageBlock,
      ∃ block, parseStageBlock block = some r := by
  intro r hr
  rcases List.mem_filterMap.1 hr with ⟨b, _, hpb⟩
  exact ⟨b, hpb⟩

theorem parse_row_length (content : List Char) :
    ∀ tc ∈ (parse_jenkinsfile content).2.2.1, tc.length = TOOL_KEYWORDS.length := by
  intro tc htc
  have hEq : (parse_jenkinsfile content).2.2.1
      = ((findStages content).filterMap parseStageBlock).map (fun r => r.2.2.1) := rfl
  rw [hEq] at htc
  rcases List.mem_map.1 htc with ⟨r, hr, rfl⟩
  rcases List.mem_filterMap.1 hr with ⟨b, _, hpb⟩
  rw [(parseStageBlock_shape b r hpb).1]
  simp [TOOL_KEYWORDS_LOWER]

theorem rec_used_set (tc : List Nat) :
    (((splitSep (joinCS (((TOOL_KEYWORDS.zip tc).filterMap
        (fun p => if 0 < p.2 then some p.1 else none)).map String.toList))).filter
        (fun t => !t.isEmpty)).map String.mk).toFinset = stageUsedSet tc := by
  have hsub : ∀ n ∈ (TOOL_KEYWORDS.zip tc).filterMap
      (fun p => if 0 < p.2 then some p.1 else none), n ∈ TOOL_KEYWORDS := by
    intro n hn
    rcases List.mem_filterMap.1 hn with ⟨p, hp, hif⟩
    have hmem := (List.of_mem_zip hp).1
    by_cases h2 : 0 < p.2
    · rw [if_pos h2] at hif
      injection hif with h3
      rw [← h3]
      exact hmem
    · rw [if_neg h2] at hif
      exact absurd hif (by simp)
  have hgood : ∀ n ∈ ((TOOL_KEYWORDS.zip tc).filterMap
      (fun p => if 0 < p.2 then some p.1 else none)).map String.toList,
      n ≠ [] ∧ ',' ∉ n ∧ '\n' ∉ n := by
    intro n hn
    rcases List.mem_map.1 hn with ⟨s, hs, rfl⟩
    exact tool_keywords_good s (hsub s hs)
  rw [split_join _ hgood, stageUsedSet]
  congr 1
  rw [List.map_map]
  have hid : (String.mk ∘ String.toList) = id := by
    funext s
    cases s
    rfl
  rw [hid, List.map_id]

theorem summary_set_aux : ∀ (rs : List (List Char × Nat × List Nat × List Char)),
    (∀ r ∈ rs, ∃ block, parseStageBlock block = some r) →
    ((rs.map (fun r => r.2.2.2)).flatMap
      (fun s => ((splitSep s).filter (fun t => !t.isEmpty)).map String.mk)).toFinset =
    ((rs.map (fun r => r.2.2.1)).map stageUsedSet).foldr (fun s t => s ∪ t) ∅ := by
  intro rs
  induction rs with
  | nil => intro _; rfl
  | cons r rest ih =>
    intro h
    rcases h r (by simp) with ⟨b, hb⟩
    have hshape := parseStageBlock_shape b r hb
    simp only [List.map_cons, List.flatMap_cons, List.foldr_cons]
    rw [List.toFinset_append, ih (fun r2 hr2 => h r2 (List.mem_cons_of_mem _ hr2))]
    congr 1
    rw [hshape.2, rec_used_set r.2.2.1]

/-! ### Claim about the per-file summary -/

/-- C9: the per-file summary equals the aggregation of the per-stage
records of `parse_jenkinsfile`: the total step count is the sum of the
per-stage step counts, each per-tool total is the sum of that tool's
per-stage counts, and the used-tool set is the union of the per-stage
used-tool sets. -/
theorem c9_summary_aggregation (content : List Char) :
    totalSteps content = (parse_jenkinsfile content).2.1.sum ∧
    (∀ i : Nat, (totalToolCounts content).getD i 0 =
      ((parse_jenkinsfile content).2.2.1.map (fun tc => tc.getD i 0)).sum) ∧
    summaryToolSet content =
      ((parse_jenkinsfile content).2.2.1.map stageUsedSet).foldr (fun s t => s ∪ t) ∅ := by
  refine ⟨rfl, ?_, ?_⟩
  · intro i
    by_cases hi : i < TOOL_KEYWORDS.length
    · rw [totalToolCounts, List.getD_eq_getElem _ _ (by simpa using hi)]
      simp
    · rw [totalToolCounts]
      rw [List.getD_eq_default _ _ (by simpa using hi)]
      symm
      apply List.sum_eq_zero
      intro x hx
      rcases List.mem_map.1 hx with ⟨tc, htc, rfl⟩
      have hlen := parse_row_length content tc htc
      exact List.getD_eq_default _ _ (by omega)
  · exact summary_set_aux ((findStages content).filterMap parseStageBlock)
      (parse_rows_shape content)

/-! ### Claim about the Vault-Usage Extractor -/

/-- C10: `extract_vault_info` emits exactly one record per function-like
block (its fields all empty strings when every vault pattern finds nothing
in the block), and appends the `global_environment` sentinel record iff the
top-level environment block exists and contains at least one assignment
whose variable name contains `vault` case-insensitively. -/
theorem c10_vault_records (content : List Char) :
    (extract_vault_info content =
      (findFuncs content).map mkFuncRecord ++
        (if (match extract_environment_block content with
             | some e => (findAllAux tryEnvVar e).any
                 (fun p => containsL ("vault".toList) (p.1.map Char.toLower))
             | none => false) = true
         then [globalEnvRecord content] else [])) ∧
    ((extract_vault_info content).length =
      (findFuncs content).length +
        (if (match extract_environment_block content with
             | some e => (findAllAux tryEnvVar e).any
                 (fun p => containsL ("vault".toList) (p.1.map Char.toLower))
             | none => false) = true
         then 1 else 0)) ∧
    ∀ fb ∈ findFuncs content,
      findAllAux tryVaultURL fb.2 = [] →
      findAllAux tryVaultCred fb.2 = [] →
      findAllAux tryNamespace fb.2 = [] →
      findAllAux tryKvPath fb.2 = [] →
      ((findAllAux tryEnvVar fb.2).filter
        (fun p => containsL ("vault".toList) (p.1.map Char.toLower))) = [] →
      ∃ r ∈ extract_vault_info content,
        r.function = (searchDefName fb.1).getD ("unknown".toList) ∧
        r.vaultURLs = [] ∧ r.vaultCredentials = [] ∧ r.vaultNamespaces = [] ∧
        r.kvPaths = [] ∧ r.vaultKeys = [] ∧ r.vaultEnvVars = [] := by
  have hcond : (globalVaultVars content).isEmpty =
      !(match extract_environment_block content with
        | some e => (findAllAux tryEnvVar e).any
            (fun p => containsL ("vault".toList) (p.1.map Char.toLower))
        | none => false) := by
    rw [globalVaultVars]
    cases he : extract_environment_block content with
    | none => rfl
    | some e =>
      show (if e.isEmpty = true then []
          else (findAllAux tryEnvVar e).filter
            (fun p => containsL ("vault".toList) (p.1.map Char.toLower))).isEmpty =
        !((findAllAux tryEnvVar e).any
            (fun p => containsL ("vault".toList) (p.1.map Char.toLower)))
      by_cases hee : e.isEmpty = true
      · rw [if_pos hee]
        have he2 : e = [] := List.isEmpty_iff.1 hee
        subst he2
        have hfa : findAllAux tryEnvVar ([] : List Char) = [] := by
          rw [findAllAux]
          decide
        rw [hfa]
        rfl
      · rw [if_neg hee]
        cases hany : (findAllAux tryEnvVar e).any
            (fun p => containsL ("vault".toList) (p.1.map Char.toLower)) with
        | true =>
          rcases List.any_eq_true.1 hany with ⟨p, hp, hpp⟩
          have hmem : p ∈ (findAllAux tryEnvVar e).filter
              (fun p => containsL ("vault".toList) (p.1.map Char.toLower)) :=
            List.mem_filter.2 ⟨hp, hpp⟩
          have hne : ((findAllAux tryEnvVar e).filter
              (fun p => containsL ("vault".toList) (p.1.map Char.toLower))).isEmpty ≠ true :=
            fun hh => (List.ne_nil_of_mem hmem) (List.isEmpty_iff.1 hh)
          simp only [Bool.not_true]
          exact Bool.eq_false_iff.2 hne
        | false =>
          have hnil : (findAllAux tryEnvVar e).filter
              (fun p => containsL ("vault".toList) (p.1.map Char.toLower)) = [] := by
            rw [List.filter_eq_nil_iff]
            intro a ha
            have := List.any_eq_false.1 hany a ha
            simpa using this
          rw [hnil]
          rfl
  have hA : extract_vault_info content =
      (findFuncs content).map mkFuncRecord ++
        (if (match extract_environment_block content with
             | some e => (findAllAux tryEnvVar e).any
                 (fun p => containsL ("vault".toList) (p.1.map Char.toLower))
             | none => false) = true
         then [globalEnvRecord content] else []) := by
    rw [extract_vault_info]
    cases hb : (match extract_environment_block content with
        | some e => (findAllAux tryEnvVar e).any
            (fun p => containsL ("vault".toList) (p.1.map Char.toLower))
        | none => false) with
    | true =>
      have h1 : (globalVaultVars content).isEmpty = false := by
        rw [hcond, hb]
        rfl
      rw [h1]
      simp
    | false =>
      have h1 : (globalVaultVars content).isEmpty = true := by
        rw [hcond, hb]
        rfl
      rw [h1]
      simp
  refine ⟨hA, ?_, ?_⟩
  · rw [hA, List.length_append, List.length_map]
    cases hb : (match extract_environment_block content with
        | some e => (findAllAux tryEnvVar e).any
            (fun p => containsL ("vault".toList) (p.1.map Char.toLower))
        | none => false) with
    | true => simp
    | false => simp
  · intro fb hfb h1 h2 h3 h4 h5
    refine ⟨mkFuncRecord fb, ?_, rfl, ?_, ?_, ?_, ?_, ?_, ?_⟩
    · exact List.mem_append_left _ (List.mem_map_of_mem _ hfb)
    · show joinCS (findAllAux tryVaultURL fb.2) = []
      rw [h1, joinCS]
    · show joinCS (findAllAux tryVaultCred fb.2) = []
      rw [h2, joinCS]
    · show joinCS (findAllAux tryNamespace fb.2) = []
      rw [h3, joinCS]
    · show joinCS (findAllAux tryKvPath fb.2) = []
      rw [h4, joinCS]
    · show (if (findAllAux tryKvPath fb.2).isEmpty then []
        else joinCS (sortLex ((findAllAux tryVaultKey fb.2).dedup))) = []
      rw [h4]
      simp
    · show (if ((findAllAux tryEnvVar fb.2).filter
          (fun p => containsL ("vault".toList) (p.1.map Char.toLower))).isEmpty then []
        else joinCS (((findAllAux tryEnvVar fb.2).filter
          (fun p => containsL ("vault".toList) (p.1.map Char.toLower))).map
            (fun p => p.1 ++ '=' :: p.2))) = []
      rw [h5]
      simp

/-- C10 witness: the record-count identity instantiated at a concrete
pipeline text with one function block and a vault environment variable. -/
theorem c10_witness :
    (extract_vault_info (("def deploy(x) \x7b\n echo\n\x7d\nenvironment \x7b\n VAULT_ADDR = \"v\"\n\x7d\n").toList)).length =
      (findFuncs (("def deploy(x) \x7b\n echo\n\x7d\nenvironment \x7b\n VAULT_ADDR = \"v\"\n\x7d\n").toList)).length +
        (if (match extract_environment_block
              (("def deploy(x) \x7b\n echo\n\x7d\nenvironment \x7b\n VAULT_ADDR = \"v\"\n\x7d\n").toList) with
             | some e => (findAllAux tryEnvVar e).any
                 (fun p => containsL ("vault".toList) (p.1.map Char.toLower))
             | none => false) = true
         then 1 else 0) :=
  (c10_vault_records _).2.1
